import Mathlib

/-!
Verification of the ordering and extraction pipeline of the
zipped-imgs-to-pdf repository.

The Python sources are embedded shallowly:

* src/shared/constants.py: the configuration constants.
* src/shared/sorting_logic.py: is_image_file, natural_sort_key, sort_images.
* src/python/zipped_imgs_to_pdf.py: extract_images_from_zip (validation and
  extraction of archive entries) and convert_images_to_pdf (page
  composition).

Python strings are modelled as Lean String values, always manipulated through
their underlying character lists so that every definition reduces inside the
kernel.  The digit class of the regular expression r'(\d+)' and of
str.isdigit is modelled as the ASCII digits 0-9 (Char.isDigit), which matches
the Python behaviour on ASCII file names.  Python's stable list.sort(key=...)
is modelled by a stable insertion sort, proved stable below.  External
collaborators (the PIL codec and the zipfile reader) are modelled as
parameters, following the collaborator boundaries described in the spec.
-/

namespace ZippedImgsToPdf

open List

/-! ### Constants (src/shared/constants.py) -/

/-- Image file extensions supported by the application. -/
def IMAGE_EXTENSIONS : List String :=
  [".jpg", ".jpeg", ".png", ".gif", ".bmp", ".tiff", ".webp"]

/-- Default priority characters for file sorting. -/
def DEFAULT_PRIORITY_CHARS : String := "!"

/-- Maximum size of an input archive, in bytes (100MB). -/
def MAX_FILE_SIZE_BYTES : Nat := 100 * 1024 * 1024

/-- Maximum cumulative declared uncompressed size (500MB, ZIP bomb guard). -/
def MAX_EXTRACTED_SIZE_BYTES : Nat := 500 * 1024 * 1024

/-- Maximum number of files to extract from one archive. -/
def MAX_FILES_IN_ZIP : Nat := 10000

/-! ### Character-level string utilities

Python's pathlib and str operations are embedded at the level of character
lists so that everything evaluates by kernel reduction. -/

/-- Split a character list at every '/' separator, keeping empty chunks,
mirroring how pathlib tokenises a POSIX path string. -/
def splitSlash : List Char → List (List Char)
  | [] => [[]]
  | c :: rest =>
    if c = '/' then [] :: splitSlash rest
    else
      match splitSlash rest with
      | [] => [[c]]
      | g :: gs => (c :: g) :: gs

/-- The components of a path as parsed by pathlib.PurePosixPath: empty chunks
(from repeated or trailing slashes) and single-dot chunks are dropped. -/
def pathComponents (s : String) : List (List Char) :=
  (splitSlash s.data).filter (fun p => !(p.isEmpty || p == ['.']))

/-- Embeds Path(s).name from pathlib: the final path component (empty for a
root or empty path). -/
def pathName (s : String) : String :=
  String.mk ((pathComponents s).getLastD [])

/-- Embeds Path(s).suffix from pathlib: the final dotted extension of the
name, empty when the name has no dot, starts with its only dot, or ends with
a dot. -/
def pathSuffix (s : String) : String :=
  let rev := (pathName s).data.reverse
  match rev.dropWhile (fun c => !(c == '.')) with
  | [] => ""
  | _ :: before =>
    let after := rev.takeWhile (fun c => !(c == '.'))
    if after.isEmpty || before.isEmpty then "" else String.mk ('.' :: after.reverse)

/-- ASCII lower-casing of one character, embedding str.lower restricted to
the ASCII range (the only case arising for file extensions). -/
def asciiLower (c : Char) : Char :=
  if 65 ≤ c.toNat ∧ c.toNat ≤ 90 then Char.ofNat (c.toNat + 32) else c

/-- ASCII lower-casing of a string. -/
def lowerStr (s : String) : String :=
  String.mk (s.data.map asciiLower)

/-- Embeds str.startswith(ch) for a single character ch: true exactly when
the first character equals ch. -/
def startswithChar (cs : List Char) (c : Char) : Bool :=
  match cs with
  | [] => false
  | d :: _ => d == c

/-- Embeds is_image_file from src/shared/sorting_logic.py:
Path(filename).suffix.lower() in IMAGE_EXTENSIONS. -/
def is_image_file (filename : String) : Bool :=
  IMAGE_EXTENSIONS.contains (lowerStr (pathSuffix filename))

/-! ### Natural sort key (src/shared/sorting_logic.py) -/

/-- One segment of a natural sort key: Python's Union[int, str]. -/
inductive Seg where
  | num (n : Nat)
  | str (s : String)
deriving DecidableEq

/-- Embeds re.split(r'(\d+)', text) on the character list of text: the list
of alternating maximal non-digit and digit chunks, beginning and ending with
a (possibly empty) non-digit chunk.  Defined by structural recursion on the
characters, prepending each character to the front of the split of the
tail. -/
def reSplitDigits : List Char → List String
  | [] => [""]
  | c :: rest =>
    let r := reSplitDigits rest
    if c.isDigit then
      match r with
      | s0 :: d :: more =>
        if s0 = "" then "" :: String.mk (c :: d.data) :: more
        else "" :: String.mk [c] :: s0 :: d :: more
      | _ => "" :: String.mk [c] :: r
    else
      match r with
      | s0 :: more => String.mk (c :: s0.data) :: more
      | [] => [String.mk [c]]

/-- Embeds Python str.isdigit for the ASCII model: nonempty and all digits. -/
def isdigitStr (s : String) : Bool :=
  !s.data.isEmpty && s.data.all Char.isDigit

/-- Decimal value of a digit chunk, embedding int(chunk). -/
def digitsToNat (cs : List Char) : Nat :=
  cs.foldl (fun a c => 10 * a + (c.toNat - 48)) 0

/-- Embeds the convert helper inside natural_sort_key:
int(chunk) if chunk.isdigit() else chunk. -/
def convertChunk (chunk : String) : Seg :=
  if isdigitStr chunk then Seg.num (digitsToNat chunk.data) else Seg.str chunk

/-- Embeds natural_sort_key from src/shared/sorting_logic.py. -/
def natural_sort_key (text : String) : List Seg :=
  (reSplitDigits text.data).map convertChunk

/-- A chunk containing no digit character (possibly empty). -/
def NDChunk (s : String) : Prop :=
  ∀ c ∈ s.data, c.isDigit = false

/-- A nonempty chunk of digit characters only. -/
def DChunk (s : String) : Prop :=
  s.data ≠ [] ∧ ∀ c ∈ s.data, c.isDigit = true

/-- The shape of the output of re.split(r'(\d+)', text): alternating
non-digit and digit chunks, beginning and ending with a non-digit chunk. -/
inductive AltChunks : List String → Prop where
  | single (s : String) : NDChunk s → AltChunks [s]
  | cons (s d : String) (rest : List String) :
      NDChunk s → DChunk d → AltChunks rest → AltChunks (s :: d :: rest)

/-- Concatenation of a chunk list, embedding the reconstruction of the
original text from its split. -/
def concatChunks (l : List String) : String :=
  l.foldl (fun r s => r ++ s) ""

/-- True on the integer segments of a key. -/
def Seg.isNum : Seg → Bool
  | .num _ => true
  | .str _ => false

/-! ### Comparisons

Python compares natural sort keys with the lexicographic order on lists,
integers numerically and strings lexicographically by code point.  The
mixed int-versus-string case raises TypeError in Python; it is given an
arbitrary total value here and is proved unreachable for positionally
aligned key segments (claim C10). -/

/-- Three-way comparison of natural numbers. -/
def natCmp (m n : Nat) : Ordering :=
  if m < n then .lt else if n < m then .gt else .eq

/-- Lexicographic three-way comparison of lists from an element comparison,
embedding Python sequence comparison (a strict prefix is smaller). -/
def listCmp (cmp : α → α → Ordering) : List α → List α → Ordering
  | [], [] => .eq
  | [], _ :: _ => .lt
  | _ :: _, [] => .gt
  | a :: as, b :: bs =>
    match cmp a b with
    | .eq => listCmp cmp as bs
    | o => o

/-- Three-way comparison of characters by code point, as in Python. -/
def charCmp (a b : Char) : Ordering :=
  natCmp a.toNat b.toNat

/-- Three-way comparison of strings, embedding Python str comparison. -/
def strCmp (s t : String) : Ordering :=
  listCmp charCmp s.data t.data

/-- Three-way comparison of key segments.  The mixed constructor cases are
unreachable when comparing two natural sort keys positionally (claim C10);
they are totalised with num below str. -/
def segCmp : Seg → Seg → Ordering
  | .num m, .num n => natCmp m n
  | .num _, .str _ => .lt
  | .str _, .num _ => .gt
  | .str s, .str t => strCmp s t

/-- Three-way comparison of natural sort keys: Python list comparison. -/
def keyCmp : List Seg → List Seg → Ordering :=
  listCmp segCmp

/-- The non-strict order packaged as a Bool, as needed by a stable sort:
a may stay before b unless its key compares greater. -/
def cmpLE (cmp : α → α → Ordering) (a b : α) : Bool :=
  match cmp a b with
  | .gt => false
  | _ => true

/-! ### Stable sort

Python's list.sort with a key function is a stable sort: it orders by the
key comparison and keeps the original relative order of elements whose keys
compare equal.  A stable sort with respect to a total preorder is unique, so
it is embedded by the following insertion sort, proved sorted, a
permutation, and stable below. -/

/-- Insert x into l, placing it before the first element y with le x y, so
that x stays before elements with an equal key. -/
def insertS (le : α → α → Bool) (x : α) : List α → List α
  | [] => [x]
  | y :: ys => if le x y then x :: y :: ys else y :: insertS le x ys

/-- Stable insertion sort: each element is inserted into the sorted tail. -/
def isort (le : α → α → Bool) : List α → List α
  | [] => []
  | x :: xs => insertS le x (isort le xs)

/-! ### sort_images (src/shared/sorting_logic.py) -/

/-- Embeds the is_priority test of sort_images: the basename starts with one
of the priority characters (False when priority_chars is empty). -/
def isPriorityName (priority_chars : String) (filename : String) : Bool :=
  if priority_chars.data.isEmpty then false
  else priority_chars.data.any (fun c => startswithChar filename.data c)

/-- Embeds get_natural_sort_key: natural_sort_key(Path(x).name). -/
def get_natural_sort_key (x : String) : List Seg :=
  natural_sort_key (pathName x)

/-- Embeds get_name_key: Path(x).name. -/
def get_name_key (x : String) : String :=
  pathName x

/-- The order used with natural sort enabled. -/
def natLE (a b : String) : Bool :=
  cmpLE keyCmp (get_natural_sort_key a) (get_natural_sort_key b)

/-- The order used with natural sort disabled: plain basename comparison. -/
def nameLE (a b : String) : Bool :=
  cmpLE strCmp (get_name_key a) (get_name_key b)

/-- The sort applied to each of the two groups in sort_images. -/
def sortGroup (use_natural_sort : Bool) (files : List String) : List String :=
  if use_natural_sort then isort natLE files else isort nameLE files

/-- Embeds sort_images from src/shared/sorting_logic.py: partition into
priority and normal files preserving input order, sort each group with the
selected key, priority group first. -/
def sort_images (image_files : List String) (use_natural_sort : Bool)
    (priority_chars : String) : List String :=
  let priority_files :=
    image_files.filter (fun img => isPriorityName priority_chars (pathName img))
  let normal_files :=
    image_files.filter (fun img => !isPriorityName priority_chars (pathName img))
  sortGroup use_natural_sort priority_files ++ sortGroup use_natural_sort normal_files

/-! ### Secure archive extraction (src/python/zipped_imgs_to_pdf.py)

The zipfile collaborator is modelled by the list of entries of the archive
central directory, each with its declared name, declared uncompressed size
and directory flag, exactly the fields extract_images_from_zip reads. -/

/-- An entry of the archive central directory. -/
structure ZipEntry where
  filename : String
  file_size : Nat
  is_dir : Bool
deriving DecidableEq

/-- True when the character list contains two consecutive dots, embedding
the Python substring test '..' in filename. -/
def dotDotIn : List Char → Bool
  | [] => false
  | c :: rest => (c == '.' && startswithChar rest '.') || dotDotIn rest

/-- Embeds the path traversal guard of extract_images_from_zip:
'..' in file_info.filename or file_info.filename.startswith('/'). -/
def suspiciousPath (name : String) : Bool :=
  dotDotIn name.data || startswithChar name.data '/'

/-- True for entries that pass every filter of the first pass: not a
directory, not a suspicious path, and an image extension. -/
def qualifies (e : ZipEntry) : Bool :=
  !e.is_dir && !suspiciousPath e.filename && is_image_file e.filename

/-- Embeds the first pass of extract_images_from_zip: walk the entry list,
skip directories and suspicious paths, collect image entries while keeping a
running total of declared sizes, and abort with an error (the ValueError of
the ZIP bomb guard) as soon as the total exceeds the ceiling. -/
def firstPass : List ZipEntry → Nat → Except Unit (List ZipEntry)
  | [], _ => .ok []
  | e :: rest, total =>
    if e.is_dir then firstPass rest total
    else if suspiciousPath e.filename then firstPass rest total
    else if is_image_file e.filename then
      if total + e.file_size > MAX_EXTRACTED_SIZE_BYTES then .error ()
      else
        match firstPass rest (total + e.file_size) with
        | .error u => .error u
        | .ok others => .ok (e :: others)
    else firstPass rest total

/-- Embeds the path join temp_dir / file_info.filename for the relative
names that reach the extraction loop. -/
def joinPath (dir name : String) : String :=
  dir ++ "/" ++ name

/-- Outcome of extract_images_from_zip.  The images constructor carries the
sorted result together with the extraction trace (the paths written to the
scratch directory, in archive order); the failure outcomes carry no trace
because the function raises or returns before extracting anything. -/
inductive ExtractOutcome where
  | images (sortedPaths : List String) (extractedTrace : List String)
  | noImages
  | securityLimit
deriving DecidableEq

/-- Embeds the body of extract_images_from_zip: validate all entries first
(ZIP bomb guard inside the loop, file count guard after it), return the
empty outcome when no image qualifies, otherwise extract every qualifying
entry to the scratch directory and sort the resulting paths. -/
def runExtract (entries : List ZipEntry) (temp_dir : String)
    (use_natural_sort : Bool) (priority_chars : String) : ExtractOutcome :=
  match firstPass entries 0 with
  | .error _ => .securityLimit
  | .ok infos =>
    if infos.length > MAX_FILES_IN_ZIP then .securityLimit
    else if infos.length = 0 then .noImages
    else
      let extracted := infos.map (fun e => joinPath temp_dir e.filename)
      .images (sort_images extracted use_natural_sort priority_chars) extracted

/-- The value returned to the caller: the sorted paths on success, the empty
list on every failure outcome (the except handlers all return []). -/
def extract_images_from_zip (entries : List ZipEntry) (temp_dir : String)
    (use_natural_sort : Bool) (priority_chars : String) : List String :=
  match runExtract entries temp_dir use_natural_sort priority_chars with
  | .images sorted _ => sorted
  | _ => []

/-- Resolution of parent-directory segments in a component list, used to
express that an extraction target stays inside the scratch directory. -/
def resolveSegs (segs : List (List Char)) : List (List Char) :=
  segs.foldl (fun acc seg => if seg == ['.', '.'] then acc.dropLast else acc ++ [seg]) []

/-- True when the declared path has a parent-directory path segment. -/
def hasParentSeg (s : String) : Bool :=
  (splitSlash s.data).contains ['.', '.']

/-! ### Page composition (src/python/zipped_imgs_to_pdf.py)

The PIL collaborator is modelled by a decode function from paths to
optional images (None embeds the IOError and OSError decode failures) and by
an atomic multi-page save, per the collaborator boundary of the spec: the
single save call either writes the whole document or fails leaving the
destination unchanged.  The destination is modelled as the optional document
content present at the output path. -/

/-- An opened image: its PIL color mode tag and abstract pixel content. -/
structure Img where
  mode : String
  content : Nat
deriving DecidableEq

/-- Embeds the color mode normalisation of convert_images_to_pdf: modes with
alpha or palette are flattened onto a white background, every other non-RGB
mode is converted to RGB, RGB is kept.  Pixel content transformation is the
codec collaborator's work and is abstracted as the identity. -/
def normalize (img : Img) : Img :=
  if img.mode = "RGBA" ∨ img.mode = "LA" ∨ img.mode = "P" then
    { mode := "RGB", content := img.content }
  else if img.mode ≠ "RGB" then
    { mode := "RGB", content := img.content }
  else img

/-- Embeds convert_images_to_pdf.  Arguments: the decode collaborator, a
flag telling whether the final save call succeeds, the input paths, and the
current content of the destination path.  Returns the boolean result of the
function and the final content of the destination path.  Mirrors the
source: empty input returns False at once; each path is decoded and
normalised, decode failures are skipped; if no image survives, return False
before any write; otherwise one atomic save of all pages in order. -/
def convert_images_to_pdf (decode : String → Option Img) (saveOk : Bool)
    (image_paths : List String) (dest : Option (List Img)) :
    Bool × Option (List Img) :=
  if image_paths.isEmpty then (false, dest)
  else
    let images := image_paths.filterMap (fun p => (decode p).map normalize)
    if images.isEmpty then (false, dest)
    else if saveOk then (true, some images) else (false, dest)

/-! ### Lemmas about the three-way comparisons -/

theorem natCmp_lt_iff {m n : Nat} : natCmp m n = .lt ↔ m < n := by
  by_cases h1 : m < n <;> by_cases h2 : n < m <;> simp [natCmp, h1, h2] <;> omega

theorem natCmp_eq_iff {m n : Nat} : natCmp m n = .eq ↔ m = n := by
  by_cases h1 : m < n <;> by_cases h2 : n < m <;> simp [natCmp, h1, h2] <;> omega

theorem natCmp_swap (m n : Nat) : natCmp m n = (natCmp n m).swap := by
  by_cases h1 : m < n <;> by_cases h2 : n < m <;>
    simp [natCmp, h1, h2, Ordering.swap] <;> omega

theorem natCmp_lt_trans {a b c : Nat} (h1 : natCmp a b = .lt)
    (h2 : natCmp b c = .lt) : natCmp a c = .lt := by
  rw [natCmp_lt_iff] at h1 h2 ⊢
  omega

theorem charCmp_swap (a b : Char) : charCmp a b = (charCmp b a).swap :=
  natCmp_swap _ _

theorem charCmp_eq {a b : Char} (h : charCmp a b = .eq) : a = b := by
  apply Char.ext
  apply UInt32.ext
  exact natCmp_eq_iff.mp h

theorem charCmp_lt_trans {a b c : Char} (h1 : charCmp a b = .lt)
    (h2 : charCmp b c = .lt) : charCmp a c = .lt :=
  natCmp_lt_trans h1 h2

theorem cmp_self_eq {cmp : α → α → Ordering}
    (hswap : ∀ a b, cmp a b = (cmp b a).swap) (a : α) : cmp a a = .eq := by
  have h := hswap a a
  cases hc : cmp a a
  · rw [hc] at h
    simp [Ordering.swap] at h
  · rfl
  · rw [hc] at h
    simp [Ordering.swap] at h

theorem listCmp_swap {cmp : α → α → Ordering}
    (hswap : ∀ a b, cmp a b = (cmp b a).swap) :
    ∀ (x y : List α), listCmp cmp x y = (listCmp cmp y x).swap := by
  intro x
  induction x with
  | nil => intro y; cases y <;> rfl
  | cons a as ih =>
    intro y
    cases y with
    | nil => rfl
    | cons b bs =>
      simp only [listCmp]
      rw [hswap a b]
      cases hba : cmp b a <;> simp [Ordering.swap, ih bs]

theorem listCmp_eq {cmp : α → α → Ordering}
    (heq : ∀ a b, cmp a b = .eq → a = b) :
    ∀ {x y : List α}, listCmp cmp x y = .eq → x = y := by
  intro x
  induction x with
  | nil => intro y h; cases y with
    | nil => rfl
    | cons b bs => simp [listCmp] at h
  | cons a as ih =>
    intro y h
    cases y with
    | nil => simp [listCmp] at h
    | cons b bs =>
      simp only [listCmp] at h
      cases hab : cmp a b <;> rw [hab] at h
      · exact absurd h (by simp)
      · rw [heq a b hab, ih h]
      · exact absurd h (by simp)

theorem listCmp_cons {cmp : α → α → Ordering} (a b : α) (as bs : List α) :
    listCmp cmp (a :: as) (b :: bs) =
      (if cmp a b = .eq then listCmp cmp as bs else cmp a b) := by
  simp only [listCmp]
  cases h : cmp a b <;> simp

theorem listCmp_lt_trans {cmp : α → α → Ordering}
    (heq : ∀ a b, cmp a b = .eq → a = b)
    (htr : ∀ a b c, cmp a b = .lt → cmp b c = .lt → cmp a c = .lt) :
    ∀ (x y z : List α), listCmp cmp x y = .lt → listCmp cmp y z = .lt →
      listCmp cmp x z = .lt := by
  intro x
  induction x with
  | nil =>
    intro y z h1 h2
    cases y with
    | nil => exact h2
    | cons b bs =>
      cases z with
      | nil => simp [listCmp] at h2
      | cons c cs => simp [listCmp]
  | cons a as ih =>
    intro y z h1 h2
    cases y with
    | nil => simp [listCmp] at h1
    | cons b bs =>
      cases z with
      | nil => simp [listCmp] at h2
      | cons c cs =>
        rw [listCmp_cons] at h1 h2 ⊢
        cases hab : cmp a b
        case lt =>
          cases hbc : cmp b c
          case lt =>
            rw [htr a b c hab hbc]
            simp
          case eq =>
            have hbc2 := heq b c hbc
            subst hbc2
            rw [hab]
            simp
          case gt =>
            rw [hbc] at h2
            simp at h2
        case eq =>
          have hab2 := heq a b hab
          subst hab2
          rw [if_pos hab] at h1
          by_cases hac : cmp a c = .eq
          · rw [if_pos hac] at h2 ⊢
            exact ih bs cs h1 h2
          · rw [if_neg hac] at h2 ⊢
            exact h2
        case gt =>
          rw [hab] at h1
          simp at h1

theorem strCmp_swap (s t : String) : strCmp s t = (strCmp t s).swap :=
  listCmp_swap charCmp_swap _ _

theorem strCmp_eq {s t : String} (h : strCmp s t = .eq) : s = t :=
  String.ext (listCmp_eq (fun _ _ => charCmp_eq) h)

theorem strCmp_lt_trans {s t u : String} (h1 : strCmp s t = .lt)
    (h2 : strCmp t u = .lt) : strCmp s u = .lt :=
  listCmp_lt_trans (fun _ _ => charCmp_eq)
    (fun _ _ _ => charCmp_lt_trans) _ _ _ h1 h2

theorem segCmp_swap : ∀ (x y : Seg), segCmp x y = (segCmp y x).swap := by
  intro x y
  cases x <;> cases y <;> simp [segCmp, Ordering.swap]
  · exact natCmp_swap _ _
  · exact strCmp_swap _ _

theorem segCmp_eq : ∀ {x y : Seg}, segCmp x y = .eq → x = y := by
  intro x y h
  cases x <;> cases y <;> simp [segCmp] at h ⊢
  · exact natCmp_eq_iff.mp h
  · exact strCmp_eq h

theorem segCmp_lt_trans : ∀ {x y z : Seg}, segCmp x y = .lt →
    segCmp y z = .lt → segCmp x z = .lt := by
  intro x y z h1 h2
  cases x <;> cases y <;> cases z <;> simp [segCmp] at h1 h2 ⊢
  · exact natCmp_lt_trans h1 h2
  · exact strCmp_lt_trans h1 h2

theorem keyCmp_swap (x y : List Seg) : keyCmp x y = (keyCmp y x).swap :=
  listCmp_swap segCmp_swap _ _

theorem keyCmp_eq {x y : List Seg} (h : keyCmp x y = .eq) : x = y :=
  listCmp_eq (fun _ _ => segCmp_eq) h

theorem keyCmp_lt_trans {x y z : List Seg} (h1 : keyCmp x y = .lt)
    (h2 : keyCmp y z = .lt) : keyCmp x z = .lt :=
  listCmp_lt_trans (fun _ _ => segCmp_eq)
    (fun _ _ _ => segCmp_lt_trans) _ _ _ h1 h2

theorem cmpLE_of_not_gt {cmp : α → α → Ordering} {a b : α}
    (h : cmp a b ≠ .gt) : cmpLE cmp a b = true := by
  unfold cmpLE
  cases hc : cmp a b
  · rfl
  · rfl
  · exact absurd hc h

theorem not_gt_of_cmpLE {cmp : α → α → Ordering} {a b : α}
    (h : cmpLE cmp a b = true) : cmp a b ≠ .gt := by
  intro hc
  simp [cmpLE, hc] at h

theorem cmpLE_total {cmp : α → α → Ordering}
    (hswap : ∀ a b, cmp a b = (cmp b a).swap) (a b : α) :
    (cmpLE cmp a b || cmpLE cmp b a) = true := by
  cases hab : cmp a b
  · simp [cmpLE, hab]
  · simp [cmpLE, hab]
  · have h := hswap b a
    rw [hab] at h
    simp [Ordering.swap] at h
    simp [cmpLE, h]

theorem cmpLE_trans {cmp : α → α → Ordering}
    (hswap : ∀ a b, cmp a b = (cmp b a).swap)
    (heq : ∀ a b, cmp a b = .eq → a = b)
    (htr : ∀ a b c, cmp a b = .lt → cmp b c = .lt → cmp a c = .lt)
    {a b c : α} (h1 : cmpLE cmp a b = true) (h2 : cmpLE cmp b c = true) :
    cmpLE cmp a c = true := by
  apply cmpLE_of_not_gt
  intro hac
  have h1n := not_gt_of_cmpLE h1
  have h2n := not_gt_of_cmpLE h2
  cases hab : cmp a b
  · cases hbc : cmp b c
    · have := htr a b c hab hbc
      rw [this] at hac
      exact absurd hac (by simp)
    · rw [heq b c hbc] at hab
      rw [hab] at hac
      exact absurd hac (by simp)
    · exact h2n hbc
  · rw [heq a b hab] at hac
    exact h2n hac
  · exact h1n hab

/-! ### Lemmas about the stable insertion sort -/

theorem insertS_perm (le : α → α → Bool) (x : α) :
    ∀ l, insertS le x l ~ x :: l := by
  intro l
  induction l with
  | nil => exact List.Perm.refl _
  | cons y ys ih =>
    unfold insertS
    by_cases h : le x y = true
    · simp [h]
    · simp [h]
      exact (List.Perm.cons y ih).trans (List.Perm.swap x y ys)

theorem isort_perm (le : α → α → Bool) : ∀ l, isort le l ~ l := by
  intro l
  induction l with
  | nil => exact List.Perm.refl _
  | cons x xs ih =>
    exact (insertS_perm le x (isort le xs)).trans (List.Perm.cons x ih)

theorem mem_isort {le : α → α → Bool} {a : α} {l : List α} :
    a ∈ isort le l ↔ a ∈ l :=
  (isort_perm le l).mem_iff

theorem mem_insertS {le : α → α → Bool} {a x : α} {l : List α} :
    a ∈ insertS le x l ↔ a = x ∨ a ∈ l := by
  rw [(insertS_perm le x l).mem_iff]
  simp

theorem pairwise_insertS {le : α → α → Bool}
    (htotal : ∀ a b, (le a b || le b a) = true)
    (htrans : ∀ a b c, le a b = true → le b c = true → le a c = true)
    (x : α) : ∀ {l : List α}, l.Pairwise (fun a b => le a b = true) →
      (insertS le x l).Pairwise (fun a b => le a b = true) := by
  intro l
  induction l with
  | nil => intro _; exact List.pairwise_singleton _ _
  | cons y ys ih =>
    intro hp
    rw [List.pairwise_cons] at hp
    obtain ⟨hy, hys⟩ := hp
    unfold insertS
    by_cases h : le x y = true
    · simp only [h, if_true]
      rw [List.pairwise_cons]
      constructor
      · intro z hz
        rcases List.mem_cons.mp hz with rfl | hz
        · exact h
        · exact htrans x y z h (hy z hz)
      · rw [List.pairwise_cons]
        exact ⟨hy, hys⟩
    · rw [Bool.not_eq_true] at h
      simp only [h, Bool.false_eq_true, if_false]
      rw [List.pairwise_cons]
      constructor
      · intro z hz
        rcases mem_insertS.mp hz with hzx | hz
        · have ht := htotal x y
          simp [h] at ht
          rw [hzx]
          exact ht
        · exact hy z hz
      · exact ih hys

theorem pairwise_isort {le : α → α → Bool}
    (htotal : ∀ a b, (le a b || le b a) = true)
    (htrans : ∀ a b c, le a b = true → le b c = true → le a c = true)
    (l : List α) : (isort le l).Pairwise (fun a b => le a b = true) := by
  induction l with
  | nil => exact List.Pairwise.nil
  | cons x xs ih => exact pairwise_insertS htotal htrans x ih

theorem insertS_split (le : α → α → Bool) (x : α) :
    ∀ l : List α, ∃ p s, l = p ++ s ∧ insertS le x l = p ++ x :: s := by
  intro l
  induction l with
  | nil => exact ⟨[], [], rfl, rfl⟩
  | cons y ys ih =>
    unfold insertS
    by_cases h : le x y = true
    · exact ⟨[], y :: ys, rfl, by simp [h]⟩
    · obtain ⟨p, s, h1, h2⟩ := ih
      refine ⟨y :: p, s, by simp [h1], ?_⟩
      simp [h, h2]

theorem sublist_insertS {le : α → α → Bool} {x : α} {c l : List α}
    (h : c <+ l) : c <+ insertS le x l := by
  obtain ⟨p, s, h1, h2⟩ := insertS_split le x l
  rw [h2]
  rw [h1] at h
  exact h.middle x

theorem pair_sublist_insertS {le : α → α → Bool} {x b : α}
    (hxb : le x b = true) : ∀ {l : List α}, b ∈ l →
      [x, b] <+ insertS le x l := by
  intro l
  induction l with
  | nil => intro h; exact absurd h (List.not_mem_nil b)
  | cons y ys ih =>
    intro hb
    unfold insertS
    by_cases h : le x y = true
    · simp only [h, if_true]
      exact (List.singleton_sublist.mpr hb).cons₂ x
    · rcases List.mem_cons.mp hb with rfl | hb
      · exact absurd hxb h
      · rw [Bool.not_eq_true] at h
        simp only [h, Bool.false_eq_true, if_false]
        exact (ih hb).cons y

theorem pair_sublist_isort {le : α → α → Bool} {a b : α}
    (hab : le a b = true) : ∀ {l : List α}, [a, b] <+ l →
      [a, b] <+ isort le l := by
  intro l
  induction l with
  | nil => intro h; cases h
  | cons x xs ih =>
    intro h
    cases h with
    | cons _ h2 => exact sublist_insertS (ih h2)
    | cons₂ _ h2 =>
      have hb : b ∈ xs := List.singleton_sublist.mp h2
      exact pair_sublist_insertS hab (mem_isort.mpr hb)

/-! ### The concrete orders used by sort_images -/

theorem natLE_total (a b : String) : (natLE a b || natLE b a) = true :=
  cmpLE_total keyCmp_swap _ _

theorem natLE_trans (a b c : String) (h1 : natLE a b = true)
    (h2 : natLE b c = true) : natLE a c = true :=
  cmpLE_trans keyCmp_swap (fun _ _ h => keyCmp_eq h)
    (fun _ _ _ ha hb => keyCmp_lt_trans ha hb) h1 h2

theorem nameLE_total (a b : String) : (nameLE a b || nameLE b a) = true :=
  cmpLE_total strCmp_swap _ _

theorem nameLE_trans (a b c : String) (h1 : nameLE a b = true)
    (h2 : nameLE b c = true) : nameLE a c = true :=
  cmpLE_trans strCmp_swap (fun _ _ h => strCmp_eq h)
    (fun _ _ _ ha hb => strCmp_lt_trans ha hb) h1 h2

theorem sortGroup_true (l : List String) : sortGroup true l = isort natLE l := rfl

theorem sortGroup_false (l : List String) : sortGroup false l = isort nameLE l := rfl

theorem sortGroup_perm (uns : Bool) (l : List String) : sortGroup uns l ~ l := by
  cases uns
  · rw [sortGroup_false]
    exact isort_perm nameLE l
  · rw [sortGroup_true]
    exact isort_perm natLE l

theorem mem_sortGroup {uns : Bool} {a : String} {l : List String} :
    a ∈ sortGroup uns l ↔ a ∈ l :=
  (sortGroup_perm uns l).mem_iff

theorem pairwise_sortGroup_nat (l : List String) :
    (sortGroup true l).Pairwise (fun a b => natLE a b = true) := by
  rw [sortGroup_true]
  exact pairwise_isort natLE_total natLE_trans l

theorem pairwise_sortGroup_name (l : List String) :
    (sortGroup false l).Pairwise (fun a b => nameLE a b = true) := by
  rw [sortGroup_false]
  exact pairwise_isort nameLE_total nameLE_trans l

theorem sort_images_def (files : List String) (uns : Bool) (pc : String) :
    sort_images files uns pc =
      sortGroup uns (files.filter (fun img => isPriorityName pc (pathName img))) ++
      sortGroup uns (files.filter (fun img => !isPriorityName pc (pathName img))) :=
  rfl

theorem samePriority_f10_f2 (pc : String) :
    isPriorityName pc (pathName "f10") = isPriorityName pc (pathName "f2") := rfl

/-! ### Structure of the reSplitDigits output -/

theorem ndchunk_empty : NDChunk "" := by
  intro c hc
  exact absurd hc (List.not_mem_nil c)

theorem ndchunk_cons {c : Char} {s : String} (hc : c.isDigit = false)
    (hs : NDChunk s) : NDChunk (String.mk (c :: s.data)) := by
  intro x hx
  rcases List.mem_cons.mp hx with hxc | hxs
  · rw [hxc]
    exact hc
  · exact hs x hxs

theorem dchunk_single {c : Char} (h : c.isDigit = true) :
    DChunk (String.mk [c]) := by
  refine ⟨by simp, ?_⟩
  intro x hx
  rcases List.mem_cons.mp hx with hxc | hxs
  · rw [hxc]
    exact h
  · exact absurd hxs (List.not_mem_nil x)

theorem dchunk_cons {c : Char} {d : String} (hc : c.isDigit = true)
    (hd : DChunk d) : DChunk (String.mk (c :: d.data)) := by
  refine ⟨by simp, ?_⟩
  intro x hx
  rcases List.mem_cons.mp hx with hxc | hxs
  · rw [hxc]
    exact hc
  · exact hd.2 x hxs

theorem data_mk (l : List Char) : (String.mk l).data = l := rfl

theorem altChunks_reSplitDigits : ∀ cs : List Char, AltChunks (reSplitDigits cs) := by
  intro cs
  induction cs with
  | nil => exact AltChunks.single "" ndchunk_empty
  | cons c rest ih =>
    obtain ⟨r, hr, hAlt⟩ : ∃ r, reSplitDigits rest = r ∧ AltChunks r := ⟨_, rfl, ih⟩
    cases hd : c.isDigit
    · cases hAlt with
      | single s hs =>
        simp only [reSplitDigits, hr, hd, Bool.false_eq_true, if_false]
        exact AltChunks.single _ (ndchunk_cons hd hs)
      | cons s d rest2 hs hd2 hrest =>
        simp only [reSplitDigits, hr, hd, Bool.false_eq_true, if_false]
        exact AltChunks.cons _ d rest2 (ndchunk_cons hd hs) hd2 hrest
    · cases hAlt with
      | single s hs =>
        simp only [reSplitDigits, hr, hd, if_true]
        exact AltChunks.cons "" (String.mk [c]) [s] ndchunk_empty
          (dchunk_single hd) (AltChunks.single s hs)
      | cons s d rest2 hs hd2 hrest =>
        by_cases hs0 : s = ""
        · subst hs0
          simp only [reSplitDigits, hr, hd, if_true, if_pos rfl]
          exact AltChunks.cons "" (String.mk (c :: d.data)) rest2 ndchunk_empty
            (dchunk_cons hd hd2) hrest
        · simp only [reSplitDigits, hr, hd, if_true, if_neg hs0]
          exact AltChunks.cons "" (String.mk [c]) (s :: d :: rest2) ndchunk_empty
            (dchunk_single hd) (AltChunks.cons s d rest2 hs hd2 hrest)

theorem flatten_reSplitDigits : ∀ cs : List Char,
    ((reSplitDigits cs).map String.data).flatten = cs := by
  intro cs
  induction cs with
  | nil => rfl
  | cons c rest ih =>
    have hAlt0 := altChunks_reSplitDigits rest
    cases hd : c.isDigit
    · rcases hr : reSplitDigits rest with _ | ⟨s0, more⟩
      · rw [hr] at hAlt0
        cases hAlt0
      · rw [hr] at ih
        simp only [List.map_cons, List.flatten_cons] at ih
        simp only [reSplitDigits, hr, hd, Bool.false_eq_true, if_false,
          List.map_cons, List.flatten_cons, data_mk, List.cons_append, ih]
    · rcases hr : reSplitDigits rest with _ | ⟨s0, _ | ⟨d, more⟩⟩
      · rw [hr] at hAlt0
        cases hAlt0
      · rw [hr] at ih
        simp only [List.map_cons, List.map_nil, List.flatten_cons,
          List.flatten_nil, List.append_nil] at ih
        simp only [reSplitDigits, hr, hd, if_true, List.map_cons, List.map_nil,
          List.flatten_cons, List.flatten_nil, List.append_nil, data_mk,
          show ("" : String).data = [] from rfl, List.nil_append,
          List.singleton_append, ih]
      · by_cases hs0 : s0 = ""
        · subst hs0
          rw [hr] at ih
          simp only [List.map_cons, List.flatten_cons,
            show ("" : String).data = [] from rfl, List.nil_append] at ih
          simp only [reSplitDigits, hr, hd, if_true, if_pos rfl, List.map_cons,
            List.flatten_cons, data_mk, show ("" : String).data = [] from rfl,
            List.nil_append, List.cons_append, ih]
        · rw [hr] at ih
          simp only [List.map_cons, List.flatten_cons] at ih
          simp only [reSplitDigits, hr, hd, if_true, if_neg hs0, List.map_cons,
            List.flatten_cons, data_mk, show ("" : String).data = [] from rfl,
            List.nil_append, List.singleton_append, ih]

theorem altChunks_length_odd {l : List String} (h : AltChunks l) :
    l.length % 2 = 1 := by
  induction h with
  | single s _ => rfl
  | cons s d rest _ _ _ ih =>
    simp only [List.length_cons]
    omega

theorem altChunks_get {l : List String} (h : AltChunks l) :
    ∀ (i : Nat) (hi : i < l.length),
      (i % 2 = 0 → NDChunk (l.get ⟨i, hi⟩)) ∧
      (i % 2 = 1 → DChunk (l.get ⟨i, hi⟩)) := by
  induction h with
  | single s hs =>
    intro i hi
    have hi0 : i = 0 := by
      simp only [List.length_singleton] at hi
      omega
    subst hi0
    exact ⟨fun _ => hs, fun hp => absurd hp (by omega)⟩
  | cons s d rest hs hd _ ih =>
    intro i hi
    rcases i with _ | (_ | i)
    · exact ⟨fun _ => hs, fun hp => absurd hp (by omega)⟩
    · exact ⟨fun hp => absurd hp (by omega), fun _ => hd⟩
    · have hi2 : i < rest.length := by
        simp only [List.length_cons] at hi
        omega
      obtain ⟨h1, h2⟩ := ih i hi2
      exact ⟨fun hp => h1 (by omega), fun hp => h2 (by omega)⟩

theorem convertChunk_nd {s : String} (h : NDChunk s) :
    convertChunk s = Seg.str s := by
  unfold convertChunk isdigitStr
  cases hs : s.data with
  | nil => simp [hs]
  | cons c cs =>
    have hc : c.isDigit = false := h c (by rw [hs]; exact List.mem_cons_self c cs)
    simp [hs, hc]

theorem convertChunk_d {s : String} (h : DChunk s) :
    convertChunk s = Seg.num (digitsToNat s.data) := by
  unfold convertChunk isdigitStr
  cases hs : s.data with
  | nil => exact absurd hs h.1
  | cons c cs =>
    have hall : List.all (c :: cs) Char.isDigit = true := by
      rw [← hs]
      exact List.all_eq_true.mpr (h.2)
    simp [hs, hall]

/-! ### Typing of natural sort keys and reconstruction of the input -/

theorem natural_sort_key_get (s : String) (i : Nat)
    (h : i < (natural_sort_key s).length) :
    (i % 2 = 0 → ∃ t, (natural_sort_key s).get ⟨i, h⟩ = Seg.str t) ∧
    (i % 2 = 1 → ∃ n, (natural_sort_key s).get ⟨i, h⟩ = Seg.num n) := by
  have hlen : i < (reSplitDigits s.data).length := by
    simpa [natural_sort_key] using h
  have hget : (natural_sort_key s).get ⟨i, h⟩ =
      convertChunk ((reSplitDigits s.data).get ⟨i, hlen⟩) := by
    simp [natural_sort_key, List.get_eq_getElem, List.getElem_map]
  obtain ⟨h1, h2⟩ := altChunks_get (altChunks_reSplitDigits s.data) i hlen
  constructor
  · intro hp
    rw [hget, convertChunk_nd (h1 hp)]
    exact ⟨_, rfl⟩
  · intro hp
    rw [hget, convertChunk_d (h2 hp)]
    exact ⟨_, rfl⟩

theorem concatChunks_data : ∀ (l : List String) (acc : String),
    (l.foldl (fun r s => r ++ s) acc).data = acc.data ++ (l.map String.data).flatten := by
  intro l
  induction l with
  | nil => intro acc; simp
  | cons s rest ih =>
    intro acc
    simp only [List.foldl_cons, ih, String.data_append, List.map_cons,
      List.flatten_cons, List.append_assoc]

theorem concatChunks_reSplitDigits (s : String) :
    concatChunks (reSplitDigits s.data) = s := by
  apply String.ext
  unfold concatChunks
  rw [concatChunks_data, flatten_reSplitDigits]
  rfl

/-! ### Lemmas about the extraction first pass -/

theorem firstPass_skip_dir {e : ZipEntry} (rest : List ZipEntry) (total : Nat)
    (h : e.is_dir = true) : firstPass (e :: rest) total = firstPass rest total := by
  simp [firstPass, h]

theorem firstPass_skip_suspicious {e : ZipEntry} (rest : List ZipEntry) (total : Nat)
    (h1 : e.is_dir = false) (h2 : suspiciousPath e.filename = true) :
    firstPass (e :: rest) total = firstPass rest total := by
  simp [firstPass, h1, h2]

theorem firstPass_overflow : ∀ (entries : List ZipEntry) (total : Nat),
    total ≤ MAX_EXTRACTED_SIZE_BYTES →
    MAX_EXTRACTED_SIZE_BYTES <
      total + ((entries.filter qualifies).map ZipEntry.file_size).sum →
    firstPass entries total = .error () := by
  intro entries
  induction entries with
  | nil =>
    intro total h1 h2
    exfalso
    simp at h2
    omega
  | cons e rest ih =>
    intro total h1 h2
    by_cases hdir : e.is_dir = true
    · have hq : qualifies e = false := by simp [qualifies, hdir]
      rw [firstPass_skip_dir rest total hdir]
      rw [List.filter_cons_of_neg (by simp [hq])] at h2
      exact ih total h1 h2
    · rw [Bool.not_eq_true] at hdir
      by_cases hsus : suspiciousPath e.filename = true
      · have hq : qualifies e = false := by simp [qualifies, hsus]
        rw [firstPass_skip_suspicious rest total hdir hsus]
        rw [List.filter_cons_of_neg (by simp [hq])] at h2
        exact ih total h1 h2
      · rw [Bool.not_eq_true] at hsus
        by_cases himg : is_image_file e.filename = true
        · have hq : qualifies e = true := by simp [qualifies, hdir, hsus, himg]
          rw [List.filter_cons_of_pos (by simp [hq])] at h2
          simp only [List.map_cons, List.sum_cons] at h2
          by_cases hover : total + e.file_size > MAX_EXTRACTED_SIZE_BYTES
          · simp [firstPass, hdir, hsus, himg, hover]
          · have hrec := ih (total + e.file_size) (by omega) (by omega)
            simp [firstPass, hdir, hsus, himg, hover, hrec]
        · rw [Bool.not_eq_true] at himg
          have hq : qualifies e = false := by simp [qualifies, himg]
          rw [List.filter_cons_of_neg (by simp [hq])] at h2
          simp only [firstPass, hdir, hsus, himg, Bool.false_eq_true, if_false]
          exact ih total h1 h2

theorem firstPass_ok_not_suspicious : ∀ (entries : List ZipEntry) (total : Nat)
    (infos : List ZipEntry), firstPass entries total = .ok infos →
    ∀ e ∈ infos, suspiciousPath e.filename = false := by
  intro entries
  induction entries with
  | nil =>
    intro total infos h e he
    simp only [firstPass] at h
    cases h
    exact absurd he (List.not_mem_nil e)
  | cons f rest ih =>
    intro total infos h e he
    by_cases hdir : f.is_dir = true
    · rw [firstPass_skip_dir rest total hdir] at h
      exact ih total infos h e he
    · rw [Bool.not_eq_true] at hdir
      by_cases hsus : suspiciousPath f.filename = true
      · rw [firstPass_skip_suspicious rest total hdir hsus] at h
        exact ih total infos h e he
      · rw [Bool.not_eq_true] at hsus
        by_cases himg : is_image_file f.filename = true
        · by_cases hover : total + f.file_size > MAX_EXTRACTED_SIZE_BYTES
          · simp [firstPass, hdir, hsus, himg, hover] at h
          · cases hrec : firstPass rest (total + f.file_size) with
            | error u => simp [firstPass, hdir, hsus, himg, hover, hrec] at h
            | ok others =>
              simp only [firstPass, hdir, hsus, himg, hover, Bool.false_eq_true,
                if_false, if_true, hrec] at h
              cases h
              rcases List.mem_cons.mp he with hef | he2
              · rw [hef]
                exact hsus
              · exact ih (total + f.file_size) others hrec e he2
        · rw [Bool.not_eq_true] at himg
          simp only [firstPass, hdir, hsus, himg, Bool.false_eq_true, if_false] at h
          exact ih total infos h e he

/-! ### Lemmas about path splitting and resolution -/

theorem splitSlash_shape : ∀ cs : List Char,
    ∃ gs, splitSlash cs = cs.takeWhile (fun c => !(c == '/')) :: gs := by
  intro cs
  induction cs with
  | nil => exact ⟨[], rfl⟩
  | cons c rest ih =>
    by_cases hc : c = '/'
    · subst hc
      refine ⟨splitSlash rest, ?_⟩
      simp [splitSlash, List.takeWhile_cons]
    · obtain ⟨gs, hg⟩ := ih
      refine ⟨gs, ?_⟩
      simp only [splitSlash, hc, if_false, hg, List.takeWhile_cons]
      simp [hc]

theorem splitSlash_cons_ne (c : Char) (rest : List Char) (hc : ¬ c = '/')
    {g : List Char} {gs : List (List Char)} (hg : splitSlash rest = g :: gs) :
    splitSlash (c :: rest) = (c :: g) :: gs := by
  simp [splitSlash, hc, hg]

theorem splitSlash_append : ∀ a b : List Char,
    splitSlash (a ++ '/' :: b) = splitSlash a ++ splitSlash b := by
  intro a b
  induction a with
  | nil => simp [splitSlash]
  | cons c a2 ih =>
    by_cases hc : c = '/'
    · subst hc
      simp [splitSlash, ih]
    · obtain ⟨gs, hg⟩ := splitSlash_shape a2
      have h1 : splitSlash (a2 ++ '/' :: b) =
          (a2.takeWhile (fun x => !(x == '/'))) :: (gs ++ splitSlash b) := by
        rw [ih, hg]
        rfl
      rw [List.cons_append, splitSlash_cons_ne c _ hc h1, splitSlash_cons_ne c _ hc hg]
      rfl

theorem dotDotIn_of_seg : ∀ cs : List Char,
    ['.', '.'] ∈ splitSlash cs → dotDotIn cs = true := by
  intro cs
  induction cs with
  | nil =>
    intro h
    simp [splitSlash] at h
  | cons c rest ih =>
    intro h
    by_cases hc : c = '/'
    · subst hc
      simp only [splitSlash, if_pos rfl] at h
      rcases List.mem_cons.mp h with habs | h2
      · exact absurd habs.symm (by simp)
      · simp [dotDotIn, ih h2]
    · obtain ⟨gs, hg⟩ := splitSlash_shape rest
      simp only [splitSlash, hc, if_false, hg] at h
      rcases List.mem_cons.mp h with hhead | h2
      · have hcdot : c = '.' := by
          have := congrArg (fun l => l.head?) hhead
          simpa using this.symm
        have htail : rest.takeWhile (fun c => !(c == '/')) = ['.'] := by
          have := congrArg (fun l => l.tail) hhead
          simpa using this.symm
        cases rest with
        | nil => simp [List.takeWhile_nil] at htail
        | cons r0 rest2 =>
          rw [List.takeWhile_cons] at htail
          by_cases hr0 : (!(r0 == '/')) = true
          · rw [if_pos hr0] at htail
            have hr0dot : r0 = '.' := by
              have := congrArg (fun l => l.head?) htail
              simpa using this
            subst hcdot
            subst hr0dot
            simp [dotDotIn, startswithChar]
          · rw [if_neg hr0] at htail
            simp at htail
      · have h3 : ['.', '.'] ∈ splitSlash rest := by
          rw [hg]
          exact List.mem_cons_of_mem _ h2
        simp [dotDotIn, ih h3]

theorem resolveSegs_append {A B : List (List Char)}
    (hB : ∀ s ∈ B, s ≠ ['.', '.']) :
    resolveSegs (A ++ B) = resolveSegs A ++ B := by
  unfold resolveSegs
  rw [List.foldl_append]
  generalize List.foldl _ [] A = acc
  induction B generalizing acc with
  | nil => simp
  | cons b bs ih =>
    have hb : (b == ['.', '.']) = false := by
      have := hB b (List.mem_cons_self b bs)
      simpa using this
    simp only [List.foldl_cons, hb, Bool.false_eq_true, if_false]
    rw [ih (fun s hs => hB s (List.mem_cons_of_mem b hs))]
    simp

theorem pathComponents_join (d f : String) :
    pathComponents (joinPath d f) = pathComponents d ++ pathComponents f := by
  unfold pathComponents joinPath
  rw [show (d ++ "/" ++ f).data = d.data ++ '/' :: f.data by
    simp [String.data_append]]
  rw [splitSlash_append, List.filter_append]

theorem no_parent_components {f : String} (hf : dotDotIn f.data = false) :
    ∀ s ∈ pathComponents f, s ≠ ['.', '.'] := by
  intro s hs habs
  subst habs
  have h2 : ['.', '.'] ∈ splitSlash f.data := (List.mem_filter.mp hs).1
  rw [dotDotIn_of_seg f.data h2] at hf
  cases hf

theorem runExtract_ok {entries : List ZipEntry} {infos : List ZipEntry}
    (temp_dir : String) (uns : Bool) (pc : String)
    (hfp : firstPass entries 0 = .ok infos) :
    runExtract entries temp_dir uns pc =
      (if infos.length > MAX_FILES_IN_ZIP then ExtractOutcome.securityLimit
       else if infos.length = 0 then ExtractOutcome.noImages
       else ExtractOutcome.images
         (sort_images (infos.map (fun e => joinPath temp_dir e.filename)) uns pc)
         (infos.map (fun e => joinPath temp_dir e.filename))) := by
  unfold runExtract
  rw [hfp]

/-! ### Claims -/

/-- C9: for every input list, every natural-sort flag and every
priority-character string, the output of sort_images is a permutation of the
input list: the same elements with the same multiplicities, none dropped,
duplicated or modified. -/
theorem sort_images_permutation (files : List String) (uns : Bool) (pc : String) :
    sort_images files uns pc ~ files := by
  rw [sort_images_def]
  exact ((sortGroup_perm uns _).append (sortGroup_perm uns _)).trans
    (List.filter_append_perm _ files)

/-- C2: in the output of sort_images, under either sort mode, a file whose
basename starts with a priority character never appears after one whose
basename does not (every priority-marked file precedes every unmarked file),
and with an empty priority-character string no file is priority and the
output collapses to the single sorted list of the whole input. -/
theorem priority_files_precede_normal (files : List String) (uns : Bool)
    (pc : String) :
    (sort_images files uns pc).Pairwise
      (fun a b => isPriorityName pc (pathName b) = true →
        isPriorityName pc (pathName a) = true)
    ∧ (pc = "" → sort_images files uns pc = sortGroup uns files) := by
  constructor
  · rw [sort_images_def]
    rw [List.pairwise_append]
    refine ⟨?_, ?_, ?_⟩
    · apply List.pairwise_of_forall_mem_list
      intro a ha b _ _
      exact (List.mem_filter.mp (mem_sortGroup.mp ha)).2
    · apply List.pairwise_of_forall_mem_list
      intro a _ b hb hbp
      have h2 := (List.mem_filter.mp (mem_sortGroup.mp hb)).2
      rw [hbp] at h2
      simp at h2
    · intro a ha b _ _
      exact (List.mem_filter.mp (mem_sortGroup.mp ha)).2
  · intro hpc
    subst hpc
    rw [sort_images_def]
    have h1 : ∀ x ∈ files, isPriorityName "" (pathName x) = false := fun x _ => rfl
    have hf1 : files.filter (fun img => isPriorityName "" (pathName img)) = [] := by
      rw [List.filter_eq_nil_iff]
      intro a ha
      simp [h1 a ha]
    have hf2 : files.filter (fun img => !isPriorityName "" (pathName img)) = files := by
      rw [List.filter_eq_self]
      intro a ha
      simp [h1 a ha]
    rw [hf1, hf2]
    cases uns <;> rfl

/-- Witness for C2 at concrete inputs: a priority-marked archive and the
empty priority-character collapse. -/
theorem priority_files_precede_normal_witness :
    (sort_images ["b.jpg", "!a.jpg"] true "!").Pairwise
      (fun a b => isPriorityName "!" (pathName b) = true →
        isPriorityName "!" (pathName a) = true)
    ∧ sort_images ["b.jpg", "a.jpg"] true "" = sortGroup true ["b.jpg", "a.jpg"] :=
  ⟨(priority_files_precede_normal ["b.jpg", "!a.jpg"] true "!").1,
   (priority_files_precede_normal ["b.jpg", "a.jpg"] true "").2 rfl⟩

/-- C1: with natural sort enabled, sort_images orders names with embedded
digit runs by numeric value: in any input list, with any priority
characters, no occurrence of f10 ever precedes an occurrence of f2, and the
specified scenario input produces exactly the specified output. -/
theorem natural_sort_orders_numeric_runs :
    (∀ (files : List String) (pc : String),
      (sort_images files true pc).Pairwise
        (fun a b => ¬(a = "f10" ∧ b = "f2")))
    ∧ sort_images ["page_10.jpg", "page_1.jpg", "!cover.jpg"] true "!" =
        ["!cover.jpg", "page_1.jpg", "page_10.jpg"] := by
  constructor
  · intro files pc
    rw [sort_images_def]
    rw [List.pairwise_append]
    refine ⟨?_, ?_, ?_⟩
    · refine List.Pairwise.imp ?_ (pairwise_sortGroup_nat _)
      intro a b hab habs
      obtain ⟨ha, hb⟩ := habs
      subst ha
      subst hb
      exact absurd hab (by decide)
    · refine List.Pairwise.imp ?_ (pairwise_sortGroup_nat _)
      intro a b hab habs
      obtain ⟨ha, hb⟩ := habs
      subst ha
      subst hb
      exact absurd hab (by decide)
    · intro a ha b hb habs
      obtain ⟨ha2, hb2⟩ := habs
      subst ha2
      subst hb2
      have hA := (List.mem_filter.mp (mem_sortGroup.mp ha)).2
      have hB := (List.mem_filter.mp (mem_sortGroup.mp hb)).2
      rw [samePriority_f10_f2 pc] at hA
      rw [hA] at hB
      simp at hB
  · decide

/-- C3 (counterexample): page_10.jpg and page_010.jpg have equal natural
sort keys and raw string comparison puts page_010.jpg first, yet sort_images
returns each input in its own input order, so the relative order of an
equal-key pair follows the pre-sort input order, not string comparison. -/
theorem equal_key_tiebreak_counterexample :
    get_natural_sort_key "page_10.jpg" = get_natural_sort_key "page_010.jpg"
    ∧ strCmp "page_010.jpg" "page_10.jpg" = .lt
    ∧ sort_images ["page_10.jpg", "page_010.jpg"] true "!" =
        ["page_10.jpg", "page_010.jpg"]
    ∧ sort_images ["page_010.jpg", "page_10.jpg"] true "!" =
        ["page_010.jpg", "page_10.jpg"] := by
  decide

/-- C3 (amended): when natural sort is enabled and two filenames produce
equal natural-sort keys (and the same priority classification), sort_images
keeps their relative input order: the sort is stable and no string-level
tiebreak is applied. -/
theorem equal_key_pairs_keep_input_order (files : List String) (pc : String)
    (a b : String)
    (hkey : get_natural_sort_key a = get_natural_sort_key b)
    (hcls : isPriorityName pc (pathName a) = isPriorityName pc (pathName b))
    (hin : [a, b] <+ files) :
    [a, b] <+ sort_images files true pc := by
  have hle : natLE a b = true := by
    unfold natLE
    rw [hkey]
    apply cmpLE_of_not_gt
    rw [cmp_self_eq keyCmp_swap]
    simp
  rw [sort_images_def, sortGroup_true, sortGroup_true]
  by_cases hp : isPriorityName pc (pathName a) = true
  · have hpb : isPriorityName pc (pathName b) = true := by
      rw [← hcls]
      exact hp
    have hfil := hin.filter (fun img => isPriorityName pc (pathName img))
    rw [show List.filter (fun img => isPriorityName pc (pathName img)) [a, b]
        = [a, b] from by simp [List.filter_cons, hp, hpb]] at hfil
    exact (pair_sublist_isort hle hfil).trans (List.sublist_append_left _ _)
  · rw [Bool.not_eq_true] at hp
    have hpb : isPriorityName pc (pathName b) = false := by
      rw [← hcls]
      exact hp
    have hfil := hin.filter (fun img => !isPriorityName pc (pathName img))
    rw [show List.filter (fun img => !isPriorityName pc (pathName img)) [a, b]
        = [a, b] from by simp [List.filter_cons, hp, hpb]] at hfil
    exact (pair_sublist_isort hle hfil).trans (List.sublist_append_right _ _)

/-- Witness for the amended C3 at a concrete equal-key pair. -/
theorem equal_key_pairs_keep_input_order_witness :
    ["page_10.jpg", "page_010.jpg"] <+
      sort_images ["page_10.jpg", "page_010.jpg"] true "!" :=
  equal_key_pairs_keep_input_order ["page_10.jpg", "page_010.jpg"] "!"
    "page_10.jpg" "page_010.jpg" (by decide) (by decide) (List.Sublist.refl _)

/-- C10: every natural sort key has string segments at even positions and
integer segments at odd positions, so positional comparison of two keys
always compares an integer with an integer or a string with a string and
the mixed int-versus-string comparison can never occur. -/
theorem key_segments_typed_alternating :
    (∀ (s : String) (i : Nat) (h : i < (natural_sort_key s).length),
      (i % 2 = 0 → ∃ t, (natural_sort_key s).get ⟨i, h⟩ = Seg.str t) ∧
      (i % 2 = 1 → ∃ n, (natural_sort_key s).get ⟨i, h⟩ = Seg.num n))
    ∧ (∀ (s1 s2 : String) (i : Nat) (h1 : i < (natural_sort_key s1).length)
        (h2 : i < (natural_sort_key s2).length),
        Seg.isNum ((natural_sort_key s1).get ⟨i, h1⟩) =
          Seg.isNum ((natural_sort_key s2).get ⟨i, h2⟩)) := by
  constructor
  · exact natural_sort_key_get
  · intro s1 s2 i h1 h2
    rcases Nat.mod_two_eq_zero_or_one i with hp | hp
    · obtain ⟨t1, ht1⟩ := (natural_sort_key_get s1 i h1).1 hp
      obtain ⟨t2, ht2⟩ := (natural_sort_key_get s2 i h2).1 hp
      rw [ht1, ht2]
      rfl
    · obtain ⟨n1, hn1⟩ := (natural_sort_key_get s1 i h1).2 hp
      obtain ⟨n2, hn2⟩ := (natural_sort_key_get s2 i h2).2 hp
      rw [hn1, hn2]
      rfl

/-- Witness for C10 on concrete keys. -/
theorem key_segments_typed_alternating_witness :
    (∃ n, (natural_sort_key "a1b").get ⟨1, by decide⟩ = Seg.num n)
    ∧ Seg.isNum ((natural_sort_key "a1b").get ⟨1, by decide⟩) =
        Seg.isNum ((natural_sort_key "x23y").get ⟨1, by decide⟩) :=
  ⟨(key_segments_typed_alternating.1 "a1b" 1 (by decide)).2 rfl,
   key_segments_typed_alternating.2 "a1b" "x23y" 1 (by decide) (by decide)⟩

/-- C7 (counterexample): the input 1 starts and ends with a digit character
yet its segment list has odd length 3 (the split is a string, the number,
a string), so the claimed equivalence between odd segment count and
non-digit boundary characters is false. -/
theorem segment_count_parity_counterexample :
    reSplitDigits ("1" : String).data = ["", "1", ""]
    ∧ (natural_sort_key "1").length % 2 = 1
    ∧ ('1' : Char).isDigit = true := by
  decide

/-- C7 (amended): concatenating the original chunk substrings of the
natural_sort_key split reconstructs the input exactly, and the segment
count is always odd, for every input. -/
theorem reSplit_reconstructs_and_odd (s : String) :
    concatChunks (reSplitDigits s.data) = s
    ∧ (natural_sort_key s).length % 2 = 1 := by
  constructor
  · exact concatChunks_reSplitDigits s
  · have h := altChunks_length_odd (altChunks_reSplitDigits s.data)
    simpa [natural_sort_key] using h

/-- C4: when the cumulative declared size of the qualifying image entries
exceeds MAX_EXTRACTED_SIZE_BYTES, the first validation pass aborts with the
security error, the outcome is the security-limit failure carrying no
extraction trace, and the function returns zero extracted files. -/
theorem zip_bomb_guard_aborts (entries : List ZipEntry) (temp_dir : String)
    (uns : Bool) (pc : String)
    (h : MAX_EXTRACTED_SIZE_BYTES <
      ((entries.filter qualifies).map ZipEntry.file_size).sum) :
    runExtract entries temp_dir uns pc = .securityLimit
    ∧ extract_images_from_zip entries temp_dir uns pc = [] := by
  have hfp : firstPass entries 0 = .error () :=
    firstPass_overflow entries 0 (Nat.zero_le _) (by omega)
  constructor
  · unfold runExtract
    rw [hfp]
  · unfold extract_images_from_zip runExtract
    rw [hfp]

/-- Witness for C4: a single 600MB image entry aborts extraction. -/
theorem zip_bomb_guard_aborts_witness :
    runExtract [⟨"big.jpg", 600 * 1024 * 1024, false⟩] "/tmp/t" true "!" =
      .securityLimit
    ∧ extract_images_from_zip [⟨"big.jpg", 600 * 1024 * 1024, false⟩]
        "/tmp/t" true "!" = [] :=
  zip_bomb_guard_aborts [⟨"big.jpg", 600 * 1024 * 1024, false⟩] "/tmp/t" true "!"
    (by decide)

/-- C8: every non-directory entry whose declared path has a
parent-directory segment or is absolute is skipped while the remaining
entries are still processed, and every path in the extraction trace
resolves to a location inside the scratch directory. -/
theorem traversal_entries_skipped_and_confined
    (entries : List ZipEntry) (temp_dir : String) (uns : Bool) (pc : String) :
    (∀ (e : ZipEntry) (rest : List ZipEntry) (total : Nat),
      e.is_dir = false →
      (hasParentSeg e.filename = true ∨ startswithChar e.filename.data '/' = true) →
      firstPass (e :: rest) total = firstPass rest total)
    ∧ (∀ sorted trace, runExtract entries temp_dir uns pc = .images sorted trace →
        ∀ p ∈ trace, ∃ t,
          resolveSegs (pathComponents p) =
            resolveSegs (pathComponents temp_dir) ++ t) := by
  constructor
  · intro e rest total hdir hbad
    apply firstPass_skip_suspicious rest total hdir
    unfold suspiciousPath
    rcases hbad with hseg | habs
    · have hdd : dotDotIn e.filename.data = true := by
        apply dotDotIn_of_seg
        unfold hasParentSeg at hseg
        simpa using hseg
      rw [hdd]
      simp
    · rw [habs]
      simp
  · intro sorted trace hrun p hp
    cases hfp : firstPass entries 0 with
    | error u =>
      unfold runExtract at hrun
      rw [hfp] at hrun
      simp at hrun
    | ok infos =>
      rw [runExtract_ok temp_dir uns pc hfp] at hrun
      by_cases hcnt : infos.length > MAX_FILES_IN_ZIP
      · rw [if_pos hcnt] at hrun
        simp at hrun
      · rw [if_neg hcnt] at hrun
        by_cases hzero : infos.length = 0
        · rw [if_pos hzero] at hrun
          simp at hrun
        · rw [if_neg hzero] at hrun
          injection hrun with hs ht
          rw [← ht] at hp
          obtain ⟨e, he, hpe⟩ := List.mem_map.mp hp
          rw [← hpe]
          have hsus := firstPass_ok_not_suspicious entries 0 infos hfp e he
          have hnd : dotDotIn e.filename.data = false := by
            unfold suspiciousPath at hsus
            exact (Bool.or_eq_false_iff.mp hsus).1
          refine ⟨pathComponents e.filename, ?_⟩
          rw [pathComponents_join]
          exact resolveSegs_append (no_parent_components hnd)

/-- Witness for C8: a traversal entry is skipped and a clean entry resolves
inside the scratch directory. -/
theorem traversal_entries_skipped_and_confined_witness :
    firstPass [⟨"../evil.jpg", 5, false⟩, ⟨"ok.jpg", 5, false⟩] 0 =
      firstPass [⟨"ok.jpg", 5, false⟩] 0
    ∧ ∃ t, resolveSegs (pathComponents "/tmp/t/ok.jpg") =
        resolveSegs (pathComponents "/tmp/t") ++ t :=
  ⟨(traversal_entries_skipped_and_confined [] "" true "!").1
      ⟨"../evil.jpg", 5, false⟩ [⟨"ok.jpg", 5, false⟩] 0 rfl (Or.inl (by decide)),
   (traversal_entries_skipped_and_confined [⟨"ok.jpg", 5, false⟩] "/tmp/t" true "!").2
      (sort_images ["/tmp/t/ok.jpg"] true "!") ["/tmp/t/ok.jpg"] (by decide)
      "/tmp/t/ok.jpg" (by decide)⟩

/-- C5: for a non-empty path list, every path that decodes is turned into
one page in input order and the conversion succeeds writing exactly those
pages, while decode failures are skipped; when every path fails to decode
the conversion reports failure and the destination is left unchanged. -/
theorem decode_failures_skipped_policy (decode : String → Option Img)
    (image_paths : List String) (hne : image_paths ≠ []) :
    ((∃ p ∈ image_paths, (decode p).isSome = true) → ∀ dest,
      convert_images_to_pdf decode true image_paths dest =
        (true, some (image_paths.filterMap (fun p => (decode p).map normalize))))
    ∧ ((∀ p ∈ image_paths, decode p = none) → ∀ saveOk dest,
      convert_images_to_pdf decode saveOk image_paths dest = (false, dest)) := by
  have hne2 : image_paths.isEmpty = false := by
    cases image_paths with
    | nil => exact absurd rfl hne
    | cons a l => rfl
  constructor
  · intro hex dest
    unfold convert_images_to_pdf
    have himg : (image_paths.filterMap (fun p => (decode p).map normalize)).isEmpty
        = false := by
      obtain ⟨p, hp, hsome⟩ := hex
      cases hfm : image_paths.filterMap (fun p => (decode p).map normalize) with
      | cons x xs => rfl
      | nil =>
        exfalso
        have hnone := List.filterMap_eq_nil_iff.mp hfm p hp
        rw [Option.map_eq_none'] at hnone
        rw [hnone] at hsome
        simp at hsome
    simp [hne2, himg]
  · intro hall saveOk dest
    unfold convert_images_to_pdf
    have himg : image_paths.filterMap (fun p => (decode p).map normalize) = [] := by
      rw [List.filterMap_eq_nil_iff]
      intro a ha
      rw [hall a ha]
      rfl
    simp [hne2, himg]

/-- Witness for C5: one good and one bad image yield one page and success;
two undecodable images yield failure with the destination untouched. -/
theorem decode_failures_skipped_policy_witness :
    convert_images_to_pdf
        (fun p => if p = "good.jpg" then some ⟨"RGB", 7⟩ else none) true
        ["good.jpg", "bad.jpg"] none =
      (true, some (["good.jpg", "bad.jpg"].filterMap
        (fun p => ((if p = "good.jpg" then some ⟨"RGB", 7⟩ else none) :
          Option Img).map normalize)))
    ∧ convert_images_to_pdf (fun _ => none) false ["c1.jpg", "c2.jpg"]
        (some [⟨"RGB", 3⟩]) = (false, some [⟨"RGB", 3⟩]) :=
  ⟨(decode_failures_skipped_policy
      (fun p => if p = "good.jpg" then some ⟨"RGB", 7⟩ else none)
      ["good.jpg", "bad.jpg"] (by decide)).1
      ⟨"good.jpg", by decide, by decide⟩ none,
   (decode_failures_skipped_policy (fun _ => none) ["c1.jpg", "c2.jpg"]
      (by decide)).2 (fun p _ => rfl) false (some [⟨"RGB", 3⟩])⟩

/-- C6: convert_images_to_pdf performs a single atomic write after all
pages are composed: whenever it reports failure the destination content is
unchanged, and whenever it reports success the destination holds exactly
the fully composed page list. -/
theorem atomic_destination_write (decode : String → Option Img) (saveOk : Bool)
    (image_paths : List String) (dest : Option (List Img)) :
    ((convert_images_to_pdf decode saveOk image_paths dest).1 = false →
      (convert_images_to_pdf decode saveOk image_paths dest).2 = dest)
    ∧ ((convert_images_to_pdf decode saveOk image_paths dest).1 = true →
      (convert_images_to_pdf decode saveOk image_paths dest).2 =
        some (image_paths.filterMap (fun p => (decode p).map normalize))) := by
  unfold convert_images_to_pdf
  by_cases h1 : image_paths.isEmpty = true
  · simp [h1]
  · rw [Bool.not_eq_true] at h1
    by_cases h2 : (image_paths.filterMap (fun p => (decode p).map normalize)).isEmpty
        = true
    · simp [h1, h2]
    · rw [Bool.not_eq_true] at h2
      cases saveOk
      · simp [h1, h2]
      · simp [h1, h2]

/-- Witness for C6: a failing conversion leaves the destination unchanged
and a successful one writes the composed pages. -/
theorem atomic_destination_write_witness :
    (convert_images_to_pdf (fun _ => none) true ["bad.jpg"]
        (some [⟨"RGB", 3⟩])).2 = some [⟨"RGB", 3⟩]
    ∧ (convert_images_to_pdf (fun _ => some ⟨"L", 4⟩) true ["a.jpg"] none).2 =
        some (["a.jpg"].filterMap
          (fun p => ((fun _ => some (⟨"L", 4⟩ : Img)) p).map normalize)) :=
  ⟨(atomic_destination_write (fun _ => none) true ["bad.jpg"]
      (some [⟨"RGB", 3⟩])).1 (by decide),
   (atomic_destination_write (fun _ => some ⟨"L", 4⟩) true ["a.jpg"] none).2
      (by decide)⟩

end ZippedImgsToPdf

